import Mathlib

/-!
Verification of the curated-transformers specification against a shallow
embedding of the repository's source.

Integer tensors are embedded as nested lists (`List (List Int)` for a
`[batch, seq]` tensor).  Stateless neural sublayers that live outside the
excerpted source (embedding tables, encoder layers) are abstracted as
function parameters; everything that the source excerpt itself computes is
translated directly.
-/

namespace CuratedTransformers

/-! ## spacy_experimental TransformerEncoder: position ids for learned
position embeddings (`encoder.py`, `_get_pos_embeddings`). -/

/-- `x.ne(padding_idx).int()` on one row: 1 where the id differs from the
padding index, 0 where it equals it (`_create_attention_mask` and the
`mask` local of `_get_pos_embeddings`). -/
def neMaskRow (paddingIdx : Int) (row : List Int) : List Int :=
  row.map (fun v => if v ≠ paddingIdx then (1 : Int) else 0)

/-- `Tensor.cumsum(dim=1)` on one row, with an explicit running sum. -/
def cumsumFrom (acc : Int) : List Int → List Int
  | [] => []
  | x :: xs => (acc + x) :: cumsumFrom (acc + x) xs

/-- Position ids computed by `TransformerEncoder._get_pos_embeddings` for
learned position embeddings: `pos_ids = (mask.cumsum(dim=1) * mask) +
self.padding_idx` with `mask = x.ne(self.padding_idx).int()`, per row. -/
def getPosIdsRow (paddingIdx : Int) (row : List Int) : List Int :=
  let mask := neMaskRow paddingIdx row
  (List.zip (cumsumFrom 0 mask) mask).map (fun p => p.1 * p.2 + paddingIdx)

/-- The specification's characterisation of the same quantity: the position
id of a non-padding token is the cumulative count of non-padding tokens up
to and including its position, offset by the padding index, while padding
positions map to the padding index itself. -/
def specPosIdsRow (paddingIdx : Int) (row : List Int) : List Int :=
  (List.range row.length).map (fun i =>
    if row.getD i paddingIdx = paddingIdx then paddingIdx
    else paddingIdx + ((row.take (i + 1)).countP (fun v => v ≠ paddingIdx) : Int))

lemma neMaskRow_nil (p : Int) : neMaskRow p [] = [] := rfl

lemma neMaskRow_cons (p x : Int) (xs : List Int) :
    neMaskRow p (x :: xs) = (if x ≠ p then (1 : Int) else 0) :: neMaskRow p xs := rfl

lemma posIds_go (p : Int) (row : List Int) : ∀ c : Nat,
    (List.zip (cumsumFrom (c : Int) (neMaskRow p row)) (neMaskRow p row)).map
        (fun q => q.1 * q.2 + p)
      = (List.range row.length).map (fun i =>
          if row.getD i p = p then p
          else p + (((c + (row.take (i + 1)).countP (fun v => v ≠ p) : Nat)) : Int)) := by
  induction row with
  | nil => intro c; simp [neMaskRow, cumsumFrom]
  | cons x xs ih =>
    intro c
    rw [neMaskRow_cons]
    by_cases h : x = p
    · subst h
      simp only [ne_eq, not_true_eq_false, if_false, cumsumFrom, List.zip_cons_cons,
        List.map_cons, add_zero, zero_mul, mul_zero, zero_add]
      rw [ih c]
      simp only [List.length_cons, List.range_succ_eq_map, List.map_cons, List.map_map]
      congr 1
      · simp
      · apply List.map_congr_left
        intro i _
        simp only [Function.comp_apply, List.getD_cons_succ, List.take_succ_cons,
          List.countP_cons]
        simp
    · have hx : (if x ≠ p then (1 : Int) else 0) = 1 := by simp [h]
      rw [hx]
      simp only [cumsumFrom, List.zip_cons_cons, List.map_cons]
      have hc : ((c : Int) + 1) = ((c + 1 : Nat) : Int) := by push_cast; ring
      rw [hc, ih (c + 1)]
      simp only [List.length_cons, List.range_succ_eq_map, List.map_cons, List.map_map]
      congr 1
      · simp only [List.getD_cons_zero, if_neg h, List.take_succ_cons, List.take_zero,
          List.countP_cons, List.countP_nil]
        simp [h]
        ring
      · apply List.map_congr_left
        intro i _
        simp only [Function.comp_apply, List.getD_cons_succ, List.take_succ_cons,
          List.countP_cons]
        split
        · rfl
        · have hd : (decide (x ≠ p)) = true := by simp [h]
          simp only [hd, ne_eq, decide_not, cond_true]
          simp [h]
          ring

/-- C8: for every padding index and every input row, the position ids
computed by `TransformerEncoder._get_pos_embeddings` for learned position
embeddings equal, at every position, the cumulative count of non-padding
tokens up to and including that position offset by the padding index, with
padding positions mapped to the padding index — never the raw sequence
index. -/
theorem c8_learned_position_ids (paddingIdx : Int) (row : List Int) :
    getPosIdsRow paddingIdx row = specPosIdsRow paddingIdx row := by
  unfold getPosIdsRow specPosIdsRow
  have h := posIds_go paddingIdx row 0
  simpa using h

/-! ## Error-message containment

`mentions msg piece` states that `piece` occurs verbatim inside `msg`,
formalising "the error message names ...". -/

/-- `msg` contains `piece` as a contiguous substring. -/
def mentions (msg piece : String) : Prop :=
  ∃ a b : List Char, msg.data = a ++ piece.data ++ b

lemma mentions_self (s : String) : mentions s s :=
  ⟨[], [], by simp⟩

lemma mentions_append_right (s t piece : String) (h : mentions t piece) :
    mentions (s ++ t) piece := by
  obtain ⟨a, b, hab⟩ := h
  exact ⟨s.data ++ a, b, by simp [String.data_append, hab]⟩

lemma mentions_append_left (s t piece : String) (h : mentions s piece) :
    mentions (s ++ t) piece := by
  obtain ⟨a, b, hab⟩ := h
  exact ⟨a, b ++ t.data, by simp [String.data_append, hab]⟩

/-! ## `tokenization/roberta_tokenizer.py` — RoBERTa tokenizer construction -/

/-- Vocabulary view of the external `cutlery.ByteBPEProcessor`: an ordered
piece → id association. -/
structure ByteBPEProcessor where
  vocab : List (String × Nat)

/-- `ByteBPEProcessor.piece_id`: the id of a piece, `none` when absent. -/
def ByteBPEProcessor.piece_id (proc : ByteBPEProcessor) (piece : String) : Option Nat :=
  (proc.vocab.find? (fun q => q.1 == piece)).map Prod.snd

/-- `RobertaPreDecoder.__init__` state. -/
structure RobertaPreDecoder where
  bos_id : Nat
  eos_id : Nat

/-- `RobertaPostEncoder.__init__` state. -/
structure RobertaPostEncoder where
  bos_piece : String
  eos_piece : String
  bos_id : Nat
  eos_id : Nat

/-- The state `RobertaTokenizer.__init__` leaves behind on success. -/
structure RobertaTokenizer where
  processor : ByteBPEProcessor
  pre_decoder : RobertaPreDecoder
  post_encoder : RobertaPostEncoder

/-- `_get_piece_id_or_fail`: resolve a piece to its id or raise a
`ValueError` naming the piece. -/
def get_piece_id_or_fail (processor : ByteBPEProcessor) (piece : String) :
    Except String Nat :=
  match processor.piece_id piece with
  | none =>
      .error ("RoBERTa piece encoder vocabulary doesn't contain '" ++ piece ++ "' piece")
  | some piece_id => .ok piece_id

/-- `RobertaTokenizer.__init__`: resolve the begin- and end-of-sequence
pieces once, failing construction when either is absent; raising is
embedded as `Except.error`. -/
def RobertaTokenizer.init (processor : ByteBPEProcessor)
    (bos_piece eos_piece : String) : Except String RobertaTokenizer :=
  match get_piece_id_or_fail processor bos_piece with
  | .error e => .error e
  | .ok bos_id =>
    match get_piece_id_or_fail processor eos_piece with
    | .error e => .error e
    | .ok eos_id =>
        .ok { processor := processor
              pre_decoder := { bos_id := bos_id, eos_id := eos_id }
              post_encoder := { bos_piece := bos_piece, eos_piece := eos_piece,
                                bos_id := bos_id, eos_id := eos_id } }

/-- C9: when the requested begin-of-sequence piece is absent from the
vocabulary, `RobertaTokenizer.__init__` raises an error whose message names
that piece and produces no tokenizer; when it is present but the
end-of-sequence piece is absent, the raised error names the latter; when
both are present, construction succeeds with both ids resolved (once) into
the pre-decoder and post-encoder. -/
theorem c9_roberta_special_piece_resolution (processor : ByteBPEProcessor)
    (bos_piece eos_piece : String) :
    (processor.piece_id bos_piece = none →
      RobertaTokenizer.init processor bos_piece eos_piece
          = .error ("RoBERTa piece encoder vocabulary doesn't contain '"
              ++ bos_piece ++ "' piece")
        ∧ mentions ("RoBERTa piece encoder vocabulary doesn't contain '"
              ++ bos_piece ++ "' piece") bos_piece)
    ∧ (∀ b : Nat, processor.piece_id bos_piece = some b →
        processor.piece_id eos_piece = none →
        RobertaTokenizer.init processor bos_piece eos_piece
            = .error ("RoBERTa piece encoder vocabulary doesn't contain '"
                ++ eos_piece ++ "' piece")
          ∧ mentions ("RoBERTa piece encoder vocabulary doesn't contain '"
                ++ eos_piece ++ "' piece") eos_piece)
    ∧ (∀ b e : Nat, processor.piece_id bos_piece = some b →
        processor.piece_id eos_piece = some e →
        RobertaTokenizer.init processor bos_piece eos_piece
          = .ok { processor := processor
                  pre_decoder := { bos_id := b, eos_id := e }
                  post_encoder := { bos_piece := bos_piece, eos_piece := eos_piece,
                                    bos_id := b, eos_id := e } }) := by
  refine ⟨fun hb => ⟨?_, ?_⟩, fun b hb he => ⟨?_, ?_⟩, fun b e hb he => ?_⟩
  · simp [RobertaTokenizer.init, get_piece_id_or_fail, hb]
  · exact mentions_append_left _ _ _ (mentions_append_right _ _ _ (mentions_self _))
  · simp [RobertaTokenizer.init, get_piece_id_or_fail, hb, he]
  · exact mentions_append_left _ _ _ (mentions_append_right _ _ _ (mentions_self _))
  · simp [RobertaTokenizer.init, get_piece_id_or_fail, hb, he]

/-- Witness for C9 at a concrete vocabulary: missing piece `"</s>"` fails
with the message naming it, and a complete vocabulary succeeds with the
resolved ids. -/
theorem c9_witness :
    (RobertaTokenizer.init ⟨[("<s>", 0)]⟩ "<s>" "</s>"
        = .error ("RoBERTa piece encoder vocabulary doesn't contain '"
            ++ "</s>" ++ "' piece"))
    ∧ (RobertaTokenizer.init ⟨[("<s>", 0), ("</s>", 1)]⟩ "<s>" "</s>"
        = .ok { processor := ⟨[("<s>", 0), ("</s>", 1)]⟩
                pre_decoder := { bos_id := 0, eos_id := 1 }
                post_encoder := { bos_piece := "<s>", eos_piece := "</s>",
                                  bos_id := 0, eos_id := 1 } }) := by
  constructor
  · exact ((c9_roberta_special_piece_resolution ⟨[("<s>", 0)]⟩ "<s>" "</s>").2.1
      0 (by simp [ByteBPEProcessor.piece_id]) (by simp [ByteBPEProcessor.piece_id])).1
  · exact (c9_roberta_special_piece_resolution ⟨[("<s>", 0), ("</s>", 1)]⟩ "<s>" "</s>").2.2
      0 1 (by simp [ByteBPEProcessor.piece_id]) (by simp [ByteBPEProcessor.piece_id])

/-! ## `util/auto_model.py` — hub-type dispatch of the auto classes -/

/-- The module classes the decoder auto class can construct
(`AutoDecoder._HF_MODEL_TYPE_TO_CURATED` values). -/
inductive DecoderClass
  | gptNeoXDecoder
  | llamaDecoder
  | refinedWebModelDecoder
deriving DecidableEq

/-- A module as produced by `module_cls.from_hf_hub(name, revision, ...)`:
which class was instantiated, and with which hub coordinates. -/
structure HFModule where
  cls : DecoderClass
  name : String
  revision : String
deriving DecidableEq

/-- `AutoDecoder._HF_MODEL_TYPE_TO_CURATED` as an ordered association. -/
def autoDecoderModelTypeMap : List (String × DecoderClass) :=
  [("gpt_neox", .gptNeoXDecoder),
   ("llama", .llamaDecoder),
   ("RefinedWeb", .refinedWebModelDecoder),
   ("RefinedWebModel", .refinedWebModelDecoder)]

/-- The `Supported model types:` rendering of the map's keys, as Python
formats the tuple of dictionary keys. -/
def supportedTypesRepr (keys : List String) : String :=
  "(" ++ String.intercalate ", " (keys.map (fun k => "'" ++ k ++ "'")) ++ ")"

/-- The `ValueError` message raised by
`AutoModel._instantiate_module_from_hf_hub` for an unsupported type. -/
def unsupportedModelTypeMessage (clsName modelType : String)
    (keys : List String) : String :=
  "Unsupported model type `" ++ modelType
    ++ ("` for " ++ clsName ++ ". Supported model types: "
          ++ supportedTypesRepr keys)

/-- `AutoModel._instantiate_module_from_hf_hub`: resolve the hub-reported
model type in the model-type → class map; raise (embedded as
`Except.error`) when it is not a key, otherwise invoke the mapped class's
`from_hf_hub`. -/
def instantiate_module_from_hf_hub (clsName : String) (name revision : String)
    (model_type : String) (map : List (String × DecoderClass)) :
    Except String HFModule :=
  match map.find? (fun p => p.1 == model_type) with
  | none => .error (unsupportedModelTypeMessage clsName model_type (map.map Prod.fst))
  | some p => .ok { cls := p.2, name := name, revision := revision }

/-- `AutoDecoder.from_hf_hub`, parameterised over the external hub
collaborator `get_hf_config_model_type`. -/
def AutoDecoder.from_hf_hub (get_hf_config_model_type : String → String → String)
    (name revision : String) : Except String HFModule :=
  instantiate_module_from_hf_hub "AutoDecoder" name revision
    (get_hf_config_model_type name revision) autoDecoderModelTypeMap

/-- C3: for every model name whose hub-reported model type is not a key of
`AutoDecoder`'s model-type map, `from_hf_hub` raises before constructing
any module, and the message names the unsupported type and mentions every
supported model type; for every name whose reported type is a key, the
mapped class is instantiated at that name and revision. -/
theorem c3_auto_decoder_dispatch
    (get_hf_config_model_type : String → String → String)
    (name revision : String) :
    (autoDecoderModelTypeMap.find?
        (fun p => p.1 == get_hf_config_model_type name revision) = none →
      AutoDecoder.from_hf_hub get_hf_config_model_type name revision
          = .error (unsupportedModelTypeMessage "AutoDecoder"
              (get_hf_config_model_type name revision)
              (autoDecoderModelTypeMap.map Prod.fst))
        ∧ mentions (unsupportedModelTypeMessage "AutoDecoder"
              (get_hf_config_model_type name revision)
              (autoDecoderModelTypeMap.map Prod.fst))
            (get_hf_config_model_type name revision)
        ∧ ∀ k ∈ autoDecoderModelTypeMap.map Prod.fst,
            mentions (unsupportedModelTypeMessage "AutoDecoder"
                (get_hf_config_model_type name revision)
                (autoDecoderModelTypeMap.map Prod.fst)) k)
    ∧ (∀ p : String × DecoderClass,
        autoDecoderModelTypeMap.find?
            (fun q => q.1 == get_hf_config_model_type name revision) = some p →
        AutoDecoder.from_hf_hub get_hf_config_model_type name revision
          = .ok { cls := p.2, name := name, revision := revision }) := by
  constructor
  · intro hnone
    refine ⟨?_, ?_, ?_⟩
    · simp [AutoDecoder.from_hf_hub, instantiate_module_from_hf_hub, hnone]
    · exact mentions_append_left _ _ _
        (mentions_append_right _ _ _ (mentions_self _))
    · intro k hk
      apply mentions_append_right
      apply mentions_append_right
      simp only [autoDecoderModelTypeMap, List.map_cons, List.map_nil,
        List.mem_cons, List.not_mem_nil, or_false] at hk
      rcases hk with h | h | h | h <;> subst h
      · exact ⟨"('".data, "', 'llama', 'RefinedWeb', 'RefinedWebModel')".data,
          by decide⟩
      · exact ⟨"('gpt_neox', '".data, "', 'RefinedWeb', 'RefinedWebModel')".data,
          by decide⟩
      · exact ⟨"('gpt_neox', 'llama', '".data, "', 'RefinedWebModel')".data,
          by decide⟩
      · exact ⟨"('gpt_neox', 'llama', 'RefinedWeb', '".data, "')".data, by decide⟩
  · intro p hp
    simp [AutoDecoder.from_hf_hub, instantiate_module_from_hf_hub, hp]

/-- Witness for C3: the hub reporting `"bert"` makes `AutoDecoder` fail
with the descriptive message, and reporting `"llama"` instantiates the
LLaMA decoder class. -/
theorem c3_witness :
    (AutoDecoder.from_hf_hub (fun _ _ => "bert") "some-model" "main"
        = .error (unsupportedModelTypeMessage "AutoDecoder" "bert"
            (autoDecoderModelTypeMap.map Prod.fst)))
    ∧ (AutoDecoder.from_hf_hub (fun _ _ => "llama") "some-model" "main"
        = .ok { cls := .llamaDecoder, name := "some-model", revision := "main" }) := by
  constructor
  · exact ((c3_auto_decoder_dispatch (fun _ _ => "bert") "some-model" "main").1
      (by decide)).1
  · exact (c3_auto_decoder_dispatch (fun _ _ => "llama") "some-model" "main").2
      ("llama", .llamaDecoder) (by decide)

/-! ## `tokenization/tokenizer.py` — `PiecesWithIds` padding and masks -/

/-- Modelled from the spec: `PiecesWithIds` (the class itself is outside
the excerpted source; §3 fixes its fields and invariant
`len(ids[i]) == len(pieces[i]) == sum(lens[i])`). -/
structure PiecesWithIds where
  ids : List (List Nat)
  pieces : List (List String)
  lens : List (List Nat)

/-- The longest true sequence length of a batch. -/
def PiecesWithIds.maxLen (p : PiecesWithIds) : Nat :=
  (p.ids.map List.length).foldr max 0

/-- Modelled from the spec: `PiecesWithIds.padded_tensor` (outside the
excerpted source; §3 and §8 fix it as the `[batch, max(lens)]` tensor of
ids right-padded with the supplied pad id). -/
def PiecesWithIds.padded_tensor (p : PiecesWithIds) (padding_id : Nat) :
    List (List Nat) :=
  p.ids.map (fun row => row ++ List.replicate (p.maxLen - row.length) padding_id)

/-- Modelled from the spec: `PiecesWithIds.attention_mask` (outside the
excerpted source; §3 and §8 fix it as the boolean tensor of the padded
tensor's shape that is `True` exactly on real-token positions). -/
def PiecesWithIds.attention_mask (p : PiecesWithIds) : List (List Bool) :=
  p.ids.map (fun row => (List.range p.maxLen).map (fun j => j < row.length))

lemma length_le_foldr_max (l : List (List Nat)) (row : List Nat) (h : row ∈ l) :
    row.length ≤ (l.map List.length).foldr max 0 := by
  induction l with
  | nil => cases h
  | cons r rs ih =>
    rcases List.mem_cons.mp h with h | h
    · subst h; exact le_max_of_le_left le_rfl
    · exact le_max_of_le_right (ih h)

lemma length_le_maxLen (p : PiecesWithIds) (row : List Nat) (h : row ∈ p.ids) :
    row.length ≤ p.maxLen :=
  length_le_foldr_max p.ids row h

lemma getD_mem_of_lt (l : List (List Nat)) (i : Nat) (hi : i < l.length) :
    l.getD i [] ∈ l := by
  rw [List.getD_eq_getElem l [] hi]
  exact List.getElem_mem hi

/-- C5: the padded tensor has one row per batch element, every row has the
longest true sequence length, below a row's true length it reproduces that
row's ids, and from its true length on it holds the supplied pad id. -/
theorem c5_padded_tensor (p : PiecesWithIds) (padding_id : Nat) (i j : Nat)
    (hi : i < p.ids.length) (hj : j < p.maxLen) :
    (p.padded_tensor padding_id).length = p.ids.length
    ∧ ((p.padded_tensor padding_id).getD i []).length = p.maxLen
    ∧ (j < (p.ids.getD i []).length →
        ((p.padded_tensor padding_id).getD i []).getD j padding_id
          = (p.ids.getD i []).getD j padding_id)
    ∧ ((p.ids.getD i []).length ≤ j →
        ((p.padded_tensor padding_id).getD i []).getD j padding_id = padding_id) := by
  have hrowlen : (p.ids.getD i []).length ≤ p.maxLen :=
    length_le_maxLen p _ (getD_mem_of_lt p.ids i hi)
  have hpad : (p.padded_tensor padding_id).getD i []
      = p.ids.getD i [] ++ List.replicate (p.maxLen - (p.ids.getD i []).length) padding_id := by
    unfold PiecesWithIds.padded_tensor
    rw [List.getD_eq_getElem _ _ (by simpa using hi), List.getElem_map]
    congr 1 <;> rw [List.getD_eq_getElem _ _ hi]
  refine ⟨by simp [PiecesWithIds.padded_tensor], ?_, ?_, ?_⟩
  · rw [hpad]
    simp only [List.length_append, List.length_replicate]
    omega
  · intro hjlt
    rw [hpad, List.getD_append _ _ _ _ hjlt]
  · intro hjge
    rw [hpad, List.getD_eq_getElem _ _
      (by simp only [List.length_append, List.length_replicate]; omega)]
    rw [List.getElem_append_right (by omega)]
    simp

/-- Witness for C5 at a concrete two-row batch. -/
theorem c5_witness :
    (PiecesWithIds.padded_tensor ⟨[[2, 41, 3], [2, 3]], [[], []], [[3], [2]]⟩ 1).length = 2
    ∧ ((PiecesWithIds.padded_tensor ⟨[[2, 41, 3], [2, 3]], [[], []], [[3], [2]]⟩ 1).getD 1 []).length = 3
    ∧ ((PiecesWithIds.padded_tensor ⟨[[2, 41, 3], [2, 3]], [[], []], [[3], [2]]⟩ 1).getD 1 []).getD 2 1 = 1 := by
  have h := c5_padded_tensor ⟨[[2, 41, 3], [2, 3]], [[], []], [[3], [2]]⟩ 1 1 2
    (by decide) (by decide)
  exact ⟨h.1, h.2.1, h.2.2.2 (by decide)⟩

/-- C6: the attention mask has the padded tensor's shape and, in every row,
is `true` exactly at the positions strictly below that row's true token
count (the sum of the row's `lens`, by the §3 invariant) and `false`
everywhere else. -/
theorem c6_attention_mask (p : PiecesWithIds) (i j : Nat)
    (hi : i < p.ids.length) (hj : j < p.maxLen)
    (hinv : (p.ids.getD i []).length = (p.lens.getD i []).sum) :
    p.attention_mask.length = (p.padded_tensor 0).length
    ∧ (p.attention_mask.getD i []).length = ((p.padded_tensor 0).getD i []).length
    ∧ ((p.attention_mask.getD i []).getD j false = true
        ↔ j < (p.lens.getD i []).sum) := by
  have hmask : p.attention_mask.getD i []
      = (List.range p.maxLen).map (fun j => decide (j < (p.ids.getD i []).length)) := by
    unfold PiecesWithIds.attention_mask
    rw [List.getD_eq_getElem _ _ (by simpa using hi), List.getElem_map]
    congr 2
    rw [List.getD_eq_getElem _ _ hi]
  have hpadlen : ((p.padded_tensor 0).getD i []).length = p.maxLen :=
    (c5_padded_tensor p 0 i j hi hj).2.1
  refine ⟨by simp [PiecesWithIds.attention_mask, PiecesWithIds.padded_tensor], ?_, ?_⟩
  · rw [hmask, hpadlen]; simp
  · rw [hmask, ← hinv]
    rw [List.getD_eq_getElem _ _ (by simpa using hj), List.getElem_map]
    simp

/-- Witness for C6 at a concrete two-row batch. -/
theorem c6_witness :
    (PiecesWithIds.attention_mask ⟨[[2, 41, 3], [2, 3]], [[], []], [[3], [2]]⟩).length
        = (PiecesWithIds.padded_tensor ⟨[[2, 41, 3], [2, 3]], [[], []], [[3], [2]]⟩ 0).length
    ∧ (((PiecesWithIds.attention_mask ⟨[[2, 41, 3], [2, 3]], [[], []], [[3], [2]]⟩).getD 1 []).getD 2 false = true
        ↔ (2 : Nat) < ([[3], [2]].getD 1 []).sum) := by
  have h := c6_attention_mask ⟨[[2, 41, 3], [2, 3]], [[], []], [[3], [2]]⟩ 1 2
    (by decide) (by decide) (by decide)
  exact ⟨h.1, h.2.2⟩

/-! ## `models/roberta/encoder.py` — `RobertaEncoder` and
`QuantizedRobertaEncoder`

The two classes differ only in which per-layer module
(`BertEncoderLayer` vs `QuantizedBertEncoderLayer`) populates
`self.layers`; those layer modules and `RobertaEmbeddings` live outside the
excerpted source and are abstracted as function-valued fields over an
abstract hidden-state type `α`. -/

/-- `TransformerEncoderOutput` from `models/output.py`. -/
structure TransformerEncoderOutput (α : Type) where
  embedding_output : α
  layer_hidden_states : List α
deriving DecidableEq

/-- The `for layer in self.layers` loop shared by both forwards: feed the
running hidden state through each layer and collect every layer output. -/
def run_layers {α : Type} (attention_mask : List (List Int)) :
    List (α → List (List Int) → α) → α → List α
  | [], _ => []
  | layer :: rest, layer_output =>
      let next := layer layer_output attention_mask
      next :: run_layers attention_mask rest next

/-- `RobertaEncoder` state: padding index, embeddings module, and the
`BertEncoderLayer` stack. -/
structure RobertaEncoder (α : Type) where
  padding_idx : Int
  embeddings : List (List Int) → Option (List (List Int)) → α
  layers : List (α → List (List Int) → α)

/-- `RobertaEncoder._create_attention_mask`: `x.ne(self.padding_idx).int()`. -/
def RobertaEncoder.create_attention_mask {α : Type} (self : RobertaEncoder α)
    (x : List (List Int)) : List (List Int) :=
  x.map (fun row => row.map (fun v => if v ≠ self.padding_idx then (1 : Int) else 0))

/-- `RobertaEncoder.forward`. -/
def RobertaEncoder.forward {α : Type} (self : RobertaEncoder α)
    (input_ids : List (List Int)) (attention_mask : Option (List (List Int)))
    (token_type_ids : Option (List (List Int))) : TransformerEncoderOutput α :=
  let attention_mask := attention_mask.getD (self.create_attention_mask input_ids)
  let embeddings := self.embeddings input_ids token_type_ids
  { embedding_output := embeddings
    layer_hidden_states := run_layers attention_mask self.layers embeddings }

/-- `QuantizedRobertaEncoder` state: padding index, embeddings module, and
the `QuantizedBertEncoderLayer` stack. -/
structure QuantizedRobertaEncoder (α : Type) where
  padding_idx : Int
  embeddings : List (List Int) → Option (List (List Int)) → α
  layers : List (α → List (List Int) → α)

/-- `QuantizedRobertaEncoder._create_attention_mask`:
`x.ne(self.padding_idx).int()`. -/
def QuantizedRobertaEncoder.create_attention_mask {α : Type}
    (self : QuantizedRobertaEncoder α) (x : List (List Int)) : List (List Int) :=
  x.map (fun row => row.map (fun v => if v ≠ self.padding_idx then (1 : Int) else 0))

/-- `QuantizedRobertaEncoder.forward`. -/
def QuantizedRobertaEncoder.forward {α : Type} (self : QuantizedRobertaEncoder α)
    (input_ids : List (List Int)) (attention_mask : Option (List (List Int)))
    (token_type_ids : Option (List (List Int))) : TransformerEncoderOutput α :=
  let attention_mask := attention_mask.getD (self.create_attention_mask input_ids)
  let embeddings := self.embeddings input_ids token_type_ids
  { embedding_output := embeddings
    layer_hidden_states := run_layers attention_mask self.layers embeddings }

lemma run_layers_congr {α : Type} (attention_mask : List (List Int))
    (ls1 ls2 : List (α → List (List Int) → α))
    (hl : List.Forall₂ (fun f g => ∀ h m, f h m = g h m) ls1 ls2) :
    ∀ x : α, run_layers attention_mask ls1 x = run_layers attention_mask ls2 x := by
  induction hl with
  | nil => intro x; rfl
  | cons hfg _ ih =>
    intro x
    simp only [run_layers, hfg x attention_mask]
    rw [ih _]

/-- C10: whenever the per-layer functions of a `RobertaEncoder` and a
`QuantizedRobertaEncoder` agree (and they share the padding index and
embeddings module), their forwards return equal outputs on every input;
moreover each of the two forwards, given no attention mask, derives it as
the comparison of the input ids against the padding index. -/
theorem c10_roberta_quantized_equivalence {α : Type}
    (encR : RobertaEncoder α) (encQ : QuantizedRobertaEncoder α)
    (hpad : encR.padding_idx = encQ.padding_idx)
    (hemb : ∀ ids tti, encR.embeddings ids tti = encQ.embeddings ids tti)
    (hlayers : List.Forall₂ (fun f g => ∀ h m, f h m = g h m) encR.layers encQ.layers)
    (input_ids : List (List Int)) (attention_mask : Option (List (List Int)))
    (token_type_ids : Option (List (List Int))) :
    encR.forward input_ids attention_mask token_type_ids
        = encQ.forward input_ids attention_mask token_type_ids
    ∧ encR.forward input_ids none token_type_ids
        = encR.forward input_ids
            (some (input_ids.map (fun row =>
              row.map (fun v => if v ≠ encR.padding_idx then (1 : Int) else 0))))
            token_type_ids
    ∧ encQ.forward input_ids none token_type_ids
        = encQ.forward input_ids
            (some (input_ids.map (fun row =>
              row.map (fun v => if v ≠ encQ.padding_idx then (1 : Int) else 0))))
            token_type_ids := by
  refine ⟨?_, rfl, rfl⟩
  unfold RobertaEncoder.forward QuantizedRobertaEncoder.forward
  simp only [RobertaEncoder.create_attention_mask,
    QuantizedRobertaEncoder.create_attention_mask, hpad, hemb]
  rw [run_layers_congr _ _ _ hlayers]

/-- Witness for C10: a concrete encoder pair with one agreeing layer. -/
theorem c10_witness :
    RobertaEncoder.forward
        ⟨0, fun ids _ => ids.length, [fun h _ => h + 1]⟩ [[1, 0]] none none
      = QuantizedRobertaEncoder.forward
        ⟨0, fun ids _ => ids.length, [fun h _ => h + 1]⟩ [[1, 0]] none none :=
  (c10_roberta_quantized_equivalence
    ⟨0, fun ids _ => ids.length, [fun h _ => h + 1]⟩
    ⟨0, fun ids _ => ids.length, [fun h _ => h + 1]⟩
    rfl (fun _ _ => rfl)
    (List.Forall₂.cons (fun _ _ => rfl) List.Forall₂.nil)
    [[1, 0]] none none).1

/-! ## `models/llama/causal_lm.py` — LLaMA causal language model

`LLaMACausalLM.forward` is translated from the source.  `LLaMADecoder` and
the output dataclasses live outside the excerpted source and are modelled
from the spec (§3, §4.6): the decoder consumes only the new tokens plus the
accumulated per-layer cache, produces one hidden state per new input
position in every layer, validates the supplied cache against the model
configuration before any computation, and grows the cache by concatenation.
The heads × head_dim dimensions of a cache entry are flattened into one
width dimension; only the batch and layer dimensions matter here. -/

/-- Modelled from the spec: a per-decoder-layer cache entry of previously
computed attention keys and values, shaped `[batch, seen, width]`. -/
structure KeyValueCache where
  key : List (List (List Int))
  value : List (List (List Int))
deriving DecidableEq

/-- The model-construction parameters of `LLaMAConfig` that matter here. -/
structure LLaMAConfig where
  hidden_width : Nat
  vocab_size : Nat
  num_hidden_layers : Nat
deriving DecidableEq

/-- Modelled from the spec: the decoder output consumed by
`LLaMACausalLM.forward` (`models/output.py` is outside the excerpted
source): embedding-layer output, every layer's hidden states, and the
optional grown cache. -/
structure DecoderOutputWithCache where
  embedding_layer : List (List (List Int))
  all_hidden_layer_states : List (List (List (List Int)))
  cache : Option (List KeyValueCache)
deriving DecidableEq

/-- The hidden states of the deepest layer (the embedding output when the
model has no layers). -/
def DecoderOutputWithCache.last_hidden_layer_states
    (d : DecoderOutputWithCache) : List (List (List Int)) :=
  d.all_hidden_layer_states.getLastD d.embedding_layer

/-- Modelled from the spec: `LLaMADecoder` state.  The embedding table, the
per-layer transformation (attention + feed-forward, abstracted as a
function of the position's hidden state and the layer's cache entry) and
the key/value projections are function-valued fields. -/
structure LLaMADecoder where
  config : LLaMAConfig
  embed : Nat → List Int
  layers : List (List Int → Option KeyValueCache → List Int)
  k_proj : List Int → List Int
  v_proj : List Int → List Int

/-- Modelled from the spec: run the decoder layers over the hidden states
of the new positions.  Each layer produces one hidden state per new input
position and appends its projected keys/values for the new positions to
its cache entry (the cache grows by concatenation, §3). -/
def run_decoder_layers (k_proj v_proj : List Int → List Int) :
    List (List Int → Option KeyValueCache → List Int) →
    List (Option KeyValueCache) → List (List (List Int)) →
    List (List (List (List Int))) × List KeyValueCache
  | [], _, _ => ([], [])
  | layer :: rest, entries, hidden =>
      let entry := entries.headD none
      let grown : KeyValueCache :=
        match entry with
        | none =>
            { key := hidden.map (fun row => row.map k_proj)
              value := hidden.map (fun row => row.map v_proj) }
        | some e =>
            { key := List.zipWith (fun old row => old ++ row.map k_proj) e.key hidden
              value := List.zipWith (fun old row => old ++ row.map v_proj) e.value hidden }
      let next := hidden.map (fun row => row.map (fun h => layer h entry))
      let restResult := run_decoder_layers k_proj v_proj rest entries.tail next
      (next :: restResult.1, grown :: restResult.2)

/-- Modelled from the spec: the decoder computation proper — embed the new
tokens and run them through the layers (performed only after the cache has
been validated). -/
def LLaMADecoder.compute (self : LLaMADecoder) (input_ids : List (List Nat))
    (cache : Option (List KeyValueCache)) (store_cache : Bool) :
    DecoderOutputWithCache :=
  let embeddings := input_ids.map (fun row => row.map self.embed)
  let entries : List (Option KeyValueCache) :=
    match cache with
    | none => List.replicate self.config.num_hidden_layers none
    | some es => es.map some
  let result := run_decoder_layers self.k_proj self.v_proj self.layers entries embeddings
  { embedding_layer := embeddings
    all_hidden_layer_states := result.1
    cache := if store_cache then some result.2 else none }

/-- Modelled from the spec (§4.6): `LLaMADecoder.forward`.  If the supplied
cache's per-layer entry count disagrees with the configured layer count, or
any entry's batch dimension disagrees with the input batch, decoding fails
with a configuration-mismatch error before any computation; otherwise the
new tokens are embedded and run through the layers. -/
def LLaMADecoder.forward (self : LLaMADecoder) (input_ids : List (List Nat))
    (cache : Option (List KeyValueCache)) (store_cache : Bool) :
    Except String DecoderOutputWithCache :=
  match cache with
  | none => .ok (self.compute input_ids none store_cache)
  | some entries =>
      if entries.length != self.config.num_hidden_layers
          || entries.any (fun e => e.key.length != input_ids.length) then
        .error "Configuration mismatch: the supplied key-value cache does not match the model configuration"
      else
        .ok (self.compute input_ids (some entries) store_cache)

/-- `torch.nn.Linear` without bias: one output coordinate per weight row. -/
def linear_no_bias (weight : List (List Int)) (x : List Int) : List Int :=
  weight.map (fun wrow => (List.zipWith (· * ·) wrow x).sum)

/-- `LLaMACausalLM` state: the decoder and the `output_embeddings` linear
projection (weight `[vocab_size, hidden_width]`, no bias). -/
structure LLaMACausalLM where
  decoder : LLaMADecoder
  output_embeddings : List (List Int)

/-- `CausalLMOutputWithCache` as populated by `LLaMACausalLM.forward`. -/
structure CausalLMOutputWithCache where
  cache : Option (List KeyValueCache)
  embedding_output : List (List (List Int))
  layer_hidden_states : List (List (List (List Int)))
  logits : List (List (List Int))
deriving DecidableEq

/-- `LLaMACausalLM.forward`: delegate to the decoder, then apply
`output_embeddings` to `decoder_output.last_hidden_layer_states` — to every
position of it, with no slicing. -/
def LLaMACausalLM.forward (self : LLaMACausalLM) (input_ids : List (List Nat))
    (cache : Option (List KeyValueCache)) (store_cache : Bool) :
    Except String CausalLMOutputWithCache :=
  match self.decoder.forward input_ids cache store_cache with
  | .error e => .error e
  | .ok decoder_output =>
      .ok { cache := decoder_output.cache
            embedding_output := decoder_output.embedding_layer
            layer_hidden_states := decoder_output.all_hidden_layer_states
            logits := decoder_output.last_hidden_layer_states.map
              (fun row => row.map (linear_no_bias self.output_embeddings)) }

lemma run_decoder_layers_shapes (kp vp : List Int → List Int) :
    ∀ (layers : List (List Int → Option KeyValueCache → List Int))
      (entries : List (Option KeyValueCache)) (hidden : List (List (List Int))),
      ∀ h' ∈ (run_decoder_layers kp vp layers entries hidden).1,
        h'.map List.length = hidden.map List.length := by
  intro layers
  induction layers with
  | nil => intro entries hidden h' hmem; simp [run_decoder_layers] at hmem
  | cons layer rest ih =>
    intro entries hidden h' hmem
    simp only [run_decoder_layers, List.mem_cons] at hmem
    have hnext : (hidden.map (fun row =>
          row.map (fun h => layer h (entries.headD none)))).map List.length
        = hidden.map List.length := by
      simp [List.map_map, Function.comp_def]
    rcases hmem with h | h
    · subst h; exact hnext
    · have := ih entries.tail _ h' h
      rw [this, hnext]

lemma getLastD_prop {α : Type} (P : α → Prop) :
    ∀ (l : List α) (d : α), P d → (∀ x ∈ l, P x) → P (l.getLastD d) := by
  intro l
  induction l with
  | nil => intro d hd _; simpa using hd
  | cons x xs ih =>
    intro d _ hall
    rw [List.getLastD_cons]
    exact ih x (hall x (by simp)) (fun y hy => hall y (by simp [hy]))

/-- C1 counterexample: a forward call with a well-formed supplied cache and
two new input tokens returns logits covering both input positions, not only
the last one — the logits' sequence length is 2, where the claim demands 1. -/
theorem c1_counterexample :
    (match LLaMACausalLM.forward
        { decoder := { config := ⟨1, 1, 1⟩, embed := fun _ => [0],
                       layers := [fun h _ => h], k_proj := id, v_proj := id }
          output_embeddings := [[1]] }
        [[0, 0]] (some [⟨[[[5]]], [[[5]]]⟩]) false with
     | .ok out => out.logits.map List.length
     | .error _ => []) = [2] ∧ (2 : Nat) ≠ 1 :=
  ⟨rfl, by decide⟩

lemma compute_last_hidden_shape (self : LLaMADecoder) (input_ids : List (List Nat))
    (cache : Option (List KeyValueCache)) (store_cache : Bool) :
    ((self.compute input_ids cache store_cache).last_hidden_layer_states).map
        List.length
      = input_ids.map List.length := by
  unfold LLaMADecoder.compute
  simp only [DecoderOutputWithCache.last_hidden_layer_states]
  have hemb : (input_ids.map (fun row => row.map self.embed)).map List.length
      = input_ids.map List.length := by
    simp [List.map_map, Function.comp_def]
  have hlast := getLastD_prop
    (fun h' : List (List (List Int)) => h'.map List.length
        = (input_ids.map (fun row => row.map self.embed)).map List.length)
    ((run_decoder_layers self.k_proj self.v_proj self.layers
        (match cache with
         | none => List.replicate self.config.num_hidden_layers none
         | some es => es.map some)
        (input_ids.map (fun row => row.map self.embed))).1)
    (input_ids.map (fun row => row.map self.embed)) rfl
    (run_decoder_layers_shapes self.k_proj self.v_proj self.layers _ _)
  rw [hlast, hemb]

/-- C1 (amended): for every forward call of the causal language model —
with or without a supplied cache — the returned logits cover every position
of the input ids passed to that call: `forward` applies `output_embeddings`
to all of `last_hidden_layer_states` and performs no last-position slicing.
(Cached steps avoid full-sequence recomputation because the caller passes
only the new tokens, not because the model slices its logits.) -/
theorem c1_logits_cover_all_input_positions (self : LLaMACausalLM)
    (input_ids : List (List Nat)) (cache : Option (List KeyValueCache))
    (store_cache : Bool) (out : CausalLMOutputWithCache)
    (h : self.forward input_ids cache store_cache = .ok out) :
    out.logits.map List.length = input_ids.map List.length := by
  unfold LLaMACausalLM.forward at h
  rcases hd : self.decoder.forward input_ids cache store_cache with e | d
  · rw [hd] at h; cases h
  · rw [hd] at h
    injection h with h
    subst h
    have hcompute : ∃ c, d = self.decoder.compute input_ids c store_cache := by
      rcases cache with _ | entries
      · simp only [LLaMADecoder.forward] at hd
        exact ⟨none, by injection hd with hd; exact hd.symm⟩
      · simp only [LLaMADecoder.forward] at hd
        by_cases hb : (entries.length != self.decoder.config.num_hidden_layers
            || entries.any (fun e => e.key.length != input_ids.length)) = true
        · rw [if_pos hb] at hd; cases hd
        · rw [if_neg hb] at hd
          exact ⟨some entries, by injection hd with hd; exact hd.symm⟩
    obtain ⟨c, hc⟩ := hcompute
    subst hc
    simp only [List.map_map, Function.comp_def, List.length_map]
    have := compute_last_hidden_shape self.decoder input_ids c store_cache
    simpa [Function.comp_def] using this

/-- Witness for C1 (amended) at a cached two-token step. -/
theorem c1_witness :
    ({ cache := none, embedding_output := [[[0], [0]]],
       layer_hidden_states := [[[[0], [0]]]],
       logits := [[[0], [0]]] } : CausalLMOutputWithCache).logits.map List.length
      = ([[0, 0]] : List (List Nat)).map List.length :=
  c1_logits_cover_all_input_positions
    { decoder := { config := ⟨1, 1, 1⟩, embed := fun _ => [0],
                   layers := [fun h _ => h], k_proj := id, v_proj := id }
      output_embeddings := [[1]] }
    [[0, 0]] (some [⟨[[[5]]], [[[5]]]⟩]) false _ rfl

/-- C2: a forward call of the causal language model with a supplied cache
whose per-layer entry count disagrees with the configured layer count, or
whose batch dimension disagrees with the input batch, fails with the
configuration-mismatch error — the decoder checks before computing, so the
call returns the error alone and no partial output. -/
theorem c2_cache_mismatch_fails (self : LLaMACausalLM)
    (input_ids : List (List Nat)) (entries : List KeyValueCache)
    (store_cache : Bool)
    (h : entries.length ≠ self.decoder.config.num_hidden_layers
        ∨ ∃ e ∈ entries, e.key.length ≠ input_ids.length) :
    self.forward input_ids (some entries) store_cache
      = .error "Configuration mismatch: the supplied key-value cache does not match the model configuration" := by
  have hinv : (entries.length != self.decoder.config.num_hidden_layers
      || entries.any (fun e => e.key.length != input_ids.length)) = true := by
    rcases h with h | ⟨e, he, hne⟩
    · simp [bne_iff_ne, h]
    · have ha : entries.any (fun e => e.key.length != input_ids.length) = true :=
        List.any_eq_true.mpr ⟨e, he, by simp [bne_iff_ne, hne]⟩
      simp [ha]
  unfold LLaMACausalLM.forward LLaMADecoder.forward
  simp [hinv]

/-- Witness for C2: a cache with no per-layer entries against a one-layer
model fails with the configuration-mismatch error. -/
theorem c2_witness :
    LLaMACausalLM.forward
        { decoder := { config := ⟨1, 1, 1⟩, embed := fun _ => [0],
                       layers := [fun h _ => h], k_proj := id, v_proj := id }
          output_embeddings := [[1]] }
        [[0]] (some []) false
      = .error "Configuration mismatch: the supplied key-value cache does not match the model configuration" :=
  c2_cache_mismatch_fails _ [[0]] [] false (Or.inl (by decide))

/-! ## BERT tokenizer pipeline

`BertTokenizer`, its pre-encoder and the WordPiece splitter live outside
the excerpted source (only their tests are under it), so they are modelled
from the spec: §4.1 (WordPiece greedy longest-prefix match with `##`
continuation and whole-word unknown fallback), §4.2 (pre-encoder:
whitespace tokenisation, optional lowercasing and accent stripping,
punctuation isolation), §4.3–§4.4 (special-marker insertion/removal and the
`##`-stripping, space-inserting decode join).  Strings are processed as
`List Char`; recursions carry explicit fuel so that every function
evaluates inside the kernel. -/

/-- The pre-encoder's punctuation test, modelled from the spec's
"documented punctuation rule set": the ASCII characters that are neither
letters, digits nor whitespace. -/
def isPunct (c : Char) : Bool :=
  (33 ≤ c.toNat && c.toNat ≤ 47) || (58 ≤ c.toNat && c.toNat ≤ 64)
    || (91 ≤ c.toNat && c.toNat ≤ 96) || (123 ≤ c.toNat && c.toNat ≤ 126)

/-- Whitespace tokenisation (Python's `str.split()`: runs of spaces
separate tokens, empty tokens are dropped), with explicit fuel. -/
def wsSplitF : Nat → List Char → List (List Char)
  | 0, _ => []
  | _ + 1, [] => []
  | fuel + 1, c :: cs =>
      if c = ' ' then wsSplitF fuel cs
      else (c :: cs.takeWhile (fun d => !(d == ' '))) ::
        wsSplitF fuel (cs.dropWhile (fun d => !(d == ' ')))

/-- Whitespace tokenisation of a character list. -/
def wsSplit (cs : List Char) : List (List Char) := wsSplitF cs.length cs

/-- `" ".join(...)` on character lists. -/
def joinSpace : List (List Char) → List Char
  | [] => []
  | [w] => w
  | w :: ws => w ++ ' ' :: joinSpace ws

/-- `split_token_on_punctuation`, modelled from the spec: every punctuation
character becomes its own token and maximal punctuation-free runs stay
together, with explicit fuel. -/
def punctSplitF : Nat → List Char → List (List Char)
  | 0, _ => []
  | _ + 1, [] => []
  | fuel + 1, c :: cs =>
      if isPunct c then [c] :: punctSplitF fuel cs
      else (c :: cs.takeWhile (fun d => !(isPunct d))) ::
        punctSplitF fuel (cs.dropWhile (fun d => !(isPunct d)))

/-- Punctuation split of a character list. -/
def punctSplit (cs : List Char) : List (List Char) := punctSplitF cs.length cs

lemma takeWhile_append_all (p : Char → Bool) (l₁ l₂ : List Char)
    (h : ∀ x ∈ l₁, p x = true) :
    (l₁ ++ l₂).takeWhile p = l₁ ++ l₂.takeWhile p := by
  induction l₁ with
  | nil => simp
  | cons a l ih =>
    simp [h a (by simp), ih (fun x hx => h x (by simp [hx]))]

lemma dropWhile_append_all (p : Char → Bool) (l₁ l₂ : List Char)
    (h : ∀ x ∈ l₁, p x = true) :
    (l₁ ++ l₂).dropWhile p = l₂.dropWhile p := by
  induction l₁ with
  | nil => simp
  | cons a l ih =>
    simp [h a (by simp), ih (fun x hx => h x (by simp [hx]))]

lemma wsSplitF_fuel_irrel : ∀ f₁ f₂ (cs : List Char), cs.length ≤ f₁ →
    cs.length ≤ f₂ → wsSplitF f₁ cs = wsSplitF f₂ cs := by
  intro f₁
  induction f₁ with
  | zero =>
    intro f₂ cs h₁ _
    have : cs = [] := List.length_eq_zero.mp (Nat.le_zero.mp h₁)
    subst this
    cases f₂ <;> rfl
  | succ f ih =>
    intro f₂ cs h₁ h₂
    cases cs with
    | nil => cases f₂ <;> rfl
    | cons c cs' =>
      cases f₂ with
      | zero => simp at h₂
      | succ f₂' =>
        simp only [wsSplitF]
        by_cases hc : c = ' '
        · simp only [if_pos hc]
          exact ih f₂' cs' (by simpa using h₁) (by simpa using h₂)
        · simp only [if_neg hc]
          have hd : (cs'.dropWhile (fun d => !(d == ' '))).length ≤ cs'.length :=
            (List.dropWhile_sublist _).length_le
          rw [ih f₂' _ (le_trans hd (by simpa using h₁))
            (le_trans hd (by simpa using h₂))]

lemma wsSplitF_eq_wsSplit (fuel : Nat) (cs : List Char) (h : cs.length ≤ fuel) :
    wsSplitF fuel cs = wsSplit cs :=
  wsSplitF_fuel_irrel fuel cs.length cs h le_rfl

/-- `wsSplit` is a left inverse of `joinSpace` on non-empty space-free
tokens. -/
lemma wsSplit_joinSpace (tokens : List (List Char))
    (h : ∀ tk ∈ tokens, tk ≠ [] ∧ ∀ x ∈ tk, x ≠ ' ') :
    wsSplit (joinSpace tokens) = tokens := by
  induction tokens with
  | nil => rfl
  | cons w ws ih =>
    obtain ⟨hw, hsp⟩ := h w (by simp)
    obtain ⟨c, w', rfl⟩ : ∃ c w', w = c :: w' := by
      cases w with
      | nil => exact absurd rfl hw
      | cons c w' => exact ⟨c, w', rfl⟩
    have hc : ¬(c = ' ') := hsp c (by simp)
    have hw' : ∀ x ∈ w', (!(x == ' ')) = true := by
      intro x hx
      simp [hsp x (by simp [hx])]
    cases ws with
    | nil =>
      show wsSplitF _ (c :: w') = [c :: w']
      simp only [wsSplit, List.length_cons, wsSplitF, if_neg hc]
      rw [List.takeWhile_eq_self_iff.mpr hw',
        List.dropWhile_eq_nil_iff.mpr (fun x hx => by simp [hsp x (by simp [hx])])]
      cases w' <;> rfl
    | cons v vs =>
      show wsSplit (c :: (w' ++ ' ' :: joinSpace (v :: vs))) = _
      simp only [wsSplit, List.length_cons, wsSplitF, if_neg hc]
      rw [takeWhile_append_all _ _ _ hw', dropWhile_append_all _ _ _ hw']
      simp only [List.takeWhile_cons, List.dropWhile_cons]
      norm_num
      have harr : w'.length + ((joinSpace (v :: vs)).length + 1)
          = (w'.length + (joinSpace (v :: vs)).length) + 1 := by omega
      rw [harr]
      show wsSplitF _ (' ' :: joinSpace (v :: vs)) = v :: vs
      simp only [wsSplitF, if_pos rfl]
      rw [wsSplitF_eq_wsSplit _ _ (by omega)]
      exact ih (fun tk htk => h tk (by simp [htk]))

/-- A token the punctuation split can emit: a lone punctuation character,
or a punctuation-free run. -/
def goodWord (w : List Char) : Prop :=
  (∃ c, w = [c] ∧ isPunct c = true) ∨ (∀ x ∈ w, isPunct x = false)

lemma punctSplitF_fuel_irrel : ∀ f₁ f₂ (cs : List Char), cs.length ≤ f₁ →
    cs.length ≤ f₂ → punctSplitF f₁ cs = punctSplitF f₂ cs := by
  intro f₁
  induction f₁ with
  | zero =>
    intro f₂ cs h₁ _
    have : cs = [] := List.length_eq_zero.mp (Nat.le_zero.mp h₁)
    subst this
    cases f₂ <;> rfl
  | succ f ih =>
    intro f₂ cs h₁ h₂
    cases cs with
    | nil => cases f₂ <;> rfl
    | cons c cs' =>
      cases f₂ with
      | zero => simp at h₂
      | succ f₂' =>
        simp only [punctSplitF]
        by_cases hc : isPunct c = true
        · simp only [if_pos hc]
          rw [ih f₂' cs' (by simpa using h₁) (by simpa using h₂)]
        · simp only [if_neg hc]
          have hd : (cs'.dropWhile (fun d => !(isPunct d))).length ≤ cs'.length :=
            (List.dropWhile_sublist _).length_le
          rw [ih f₂' _ (le_trans hd (by simpa using h₁))
            (le_trans hd (by simpa using h₂))]

lemma punctSplitF_eq_punctSplit (fuel : Nat) (cs : List Char)
    (h : cs.length ≤ fuel) : punctSplitF fuel cs = punctSplit cs :=
  punctSplitF_fuel_irrel fuel cs.length cs h le_rfl

/-- The punctuation split loses no characters. -/
lemma punctSplit_flatten : ∀ (fuel : Nat) (cs : List Char), cs.length ≤ fuel →
    (punctSplitF fuel cs).flatten = cs := by
  intro fuel
  induction fuel with
  | zero =>
    intro cs h
    have : cs = [] := List.length_eq_zero.mp (Nat.le_zero.mp h)
    subst this; rfl
  | succ f ih =>
    intro cs h
    cases cs with
    | nil => rfl
    | cons c cs' =>
      simp only [punctSplitF]
      by_cases hc : isPunct c = true
      · simp only [if_pos hc, List.flatten_cons]
        rw [ih cs' (by simpa using h)]
        rfl
      · simp only [if_neg hc, List.flatten_cons]
        have hd : (cs'.dropWhile (fun d => !(isPunct d))).length ≤ cs'.length :=
          (List.dropWhile_sublist _).length_le
        rw [ih _ (le_trans hd (by simpa using h))]
        simp [List.takeWhile_append_dropWhile]

lemma punctSplit_flatten_eq (cs : List Char) : (punctSplit cs).flatten = cs :=
  punctSplit_flatten cs.length cs le_rfl

/-- Every token the punctuation split emits is non-empty and is either a
lone punctuation character or punctuation-free. -/
lemma punctSplit_tokens : ∀ (fuel : Nat) (cs : List Char) (g : List Char),
    g ∈ punctSplitF fuel cs → g ≠ [] ∧ goodWord g := by
  intro fuel
  induction fuel with
  | zero => intro cs g hg; simp [punctSplitF] at hg
  | succ f ih =>
    intro cs g hg
    cases cs with
    | nil => simp [punctSplitF] at hg
    | cons c cs' =>
      simp only [punctSplitF] at hg
      by_cases hc : isPunct c = true
      · rw [if_pos hc] at hg
        rcases List.mem_cons.mp hg with h | h
        · subst h
          exact ⟨by simp, Or.inl ⟨c, rfl, hc⟩⟩
        · exact ih cs' g h
      · rw [if_neg hc] at hg
        rcases List.mem_cons.mp hg with h | h
        · subst h
          refine ⟨by simp, Or.inr ?_⟩
          intro x hx
          rcases List.mem_cons.mp hx with h | h
          · subst h; simpa using hc
          · have := List.mem_takeWhile_imp h
            simpa using this
        · exact ih _ g h

/-! ### Normalization character maps (pre-encoder) -/

/-- Modelled from the spec: NFD decompositions of common accented letters,
as base letter (the combining mark is dropped when accents are stripped). -/
def accentTable : List (Char × Char) :=
  [('ä', 'a'), ('ö', 'o'), ('ü', 'u'), ('Ä', 'A'), ('Ö', 'O'), ('Ü', 'U'),
   ('á', 'a'), ('à', 'a'), ('â', 'a'), ('é', 'e'), ('è', 'e'), ('ê', 'e'),
   ('í', 'i'), ('ì', 'i'), ('ó', 'o'), ('ò', 'o'), ('ú', 'u'), ('ù', 'u')]

/-- A combining diacritical mark (Unicode category Mn, U+0300–U+036F). -/
def isCombiningMark (c : Char) : Bool := 0x300 ≤ c.toNat && c.toNat ≤ 0x36F

/-- Strip one character's accent: combining marks are removed, accented
letters are replaced by their base letter, everything else is unchanged. -/
def stripAccentsChar (c : Char) : Option Char :=
  if isCombiningMark c then none
  else some (((accentTable.find? (fun q => q.1 == c)).map Prod.snd).getD c)

/-- ASCII lowercasing as an explicit table. -/
def lowerTable : List (Char × Char) :=
  [('A', 'a'), ('B', 'b'), ('C', 'c'), ('D', 'd'), ('E', 'e'), ('F', 'f'),
   ('G', 'g'), ('H', 'h'), ('I', 'i'), ('J', 'j'), ('K', 'k'), ('L', 'l'),
   ('M', 'm'), ('N', 'n'), ('O', 'o'), ('P', 'p'), ('Q', 'q'), ('R', 'r'),
   ('S', 's'), ('T', 't'), ('U', 'u'), ('V', 'v'), ('W', 'w'), ('X', 'x'),
   ('Y', 'y'), ('Z', 'z')]

/-- Lowercase one character. -/
def lowerChar (c : Char) : Char :=
  ((lowerTable.find? (fun q => q.1 == c)).map Prod.snd).getD c

/-- One word's normalization: optional lowercasing, then optional accent
stripping (per the pre-encoder's flags). -/
def normWord (lowercase strip_accents : Bool) (w : List Char) : List Char :=
  let w := if lowercase then w.map lowerChar else w
  if strip_accents then w.filterMap stripAccentsChar else w

lemma lowerChar_ne_space (c : Char) (hc : c ≠ ' ') : lowerChar c ≠ ' ' := by
  unfold lowerChar
  cases hf : lowerTable.find? (fun q => q.1 == c) with
  | none => simpa using hc
  | some q =>
    have hq : q ∈ lowerTable := List.mem_of_find?_eq_some hf
    fin_cases hq <;> simp

lemma stripAccentsChar_ne_space (c c' : Char) (hc : c ≠ ' ')
    (h : stripAccentsChar c = some c') : c' ≠ ' ' := by
  unfold stripAccentsChar at h
  by_cases hm : isCombiningMark c = true
  · rw [if_pos hm] at h; cases h
  · rw [if_neg hm] at h
    injection h with h
    subst h
    cases hf : accentTable.find? (fun q => q.1 == c) with
    | none => simpa using hc
    | some q =>
      have hq : q ∈ accentTable := List.mem_of_find?_eq_some hf
      fin_cases hq <;> simp

lemma normWord_ne_space (lowercase strip_accents : Bool) (w : List Char)
    (h : ∀ x ∈ w, x ≠ ' ') : ∀ x ∈ normWord lowercase strip_accents w, x ≠ ' ' := by
  unfold normWord
  intro x hx
  have hmid : ∀ y ∈ (if lowercase then w.map lowerChar else w), y ≠ ' ' := by
    intro y hy
    cases lowercase with
    | false => exact h y (by simpa using hy)
    | true =>
      simp only [if_true] at hy
      obtain ⟨z, hz, rfl⟩ := List.mem_map.mp hy
      exact lowerChar_ne_space z (h z hz)
  cases strip_accents with
  | false => exact hmid x (by simpa using hx)
  | true =>
    simp only [if_true] at hx
    obtain ⟨z, hz, hzx⟩ := List.mem_filterMap.mp hx
    exact stripAccentsChar_ne_space z x (hmid z hz) hzx

lemma wsSplit_tokens : ∀ (fuel : Nat) (cs : List Char) (w : List Char),
    w ∈ wsSplitF fuel cs → w ≠ [] ∧ ∀ x ∈ w, x ≠ ' ' := by
  intro fuel
  induction fuel with
  | zero => intro cs w hw; simp [wsSplitF] at hw
  | succ f ih =>
    intro cs w hw
    cases cs with
    | nil => simp [wsSplitF] at hw
    | cons c cs' =>
      simp only [wsSplitF] at hw
      by_cases hc : c = ' '
      · rw [if_pos hc] at hw
        exact ih cs' w hw
      · rw [if_neg hc] at hw
        rcases List.mem_cons.mp hw with h | h
        · subst h
          refine ⟨by simp, ?_⟩
          intro x hx
          rcases List.mem_cons.mp hx with h | h
          · subst h; exact hc
          · have := List.mem_takeWhile_imp h
            simpa using this
        · exact ih _ w h

/-! ### The BERT pre-encoder -/

/-- Modelled from the spec (§4.2): the tokens one text is reduced to —
whitespace-split words, each normalized and then split on punctuation. -/
def preTokens (lowercase strip_accents : Bool) (t : String) : List (List Char) :=
  (wsSplit t.data).flatMap (fun w => punctSplit (normWord lowercase strip_accents w))

/-- Modelled from the spec (§4.2): normalize one text — whitespace-split,
lowercase and/or strip accents per the flags, isolate punctuation, and
rejoin the tokens with single spaces. -/
def preEncodeText (lowercase strip_accents : Bool) (t : String) : String :=
  String.mk (joinSpace (preTokens lowercase strip_accents t))

/-- Modelled from the spec: `BertPreEncoder.__call__`, a pure function over
an ordered sequence of input strings. -/
def bertPreEncoder (lowercase strip_accents : Bool) (input : List String) :
    List String :=
  input.map (preEncodeText lowercase strip_accents)

/-- Every pre-encoder token is non-empty, space-free, and a lone
punctuation mark or punctuation-free. -/
lemma preTokens_spec (lowercase strip_accents : Bool) (t : String) :
    ∀ tk ∈ preTokens lowercase strip_accents t,
      (tk ≠ [] ∧ ∀ x ∈ tk, x ≠ ' ') ∧ goodWord tk := by
  intro tk htk
  obtain ⟨w, hw, htk⟩ := List.mem_flatMap.mp htk
  obtain ⟨hne, hgood⟩ := punctSplit_tokens _ _ tk htk
  have hsub : ∀ x ∈ tk, x ∈ normWord lowercase strip_accents w := by
    intro x hx
    have : x ∈ (punctSplit (normWord lowercase strip_accents w)).flatten :=
      List.mem_flatten.mpr ⟨tk, htk, hx⟩
    rwa [punctSplit_flatten_eq] at this
  have hwsp : ∀ x ∈ w, x ≠ ' ' := (wsSplit_tokens _ _ w hw).2
  refine ⟨⟨hne, ?_⟩, hgood⟩
  intro x hx
  exact normWord_ne_space lowercase strip_accents w hwsp x (hsub x hx)

/-- The pre-encoded text whitespace-splits back into exactly its tokens. -/
lemma wsSplit_preEncodeText (lowercase strip_accents : Bool) (t : String) :
    wsSplit (preEncodeText lowercase strip_accents t).data
      = preTokens lowercase strip_accents t := by
  show wsSplit (joinSpace (preTokens lowercase strip_accents t)) = _
  exact wsSplit_joinSpace _ (fun tk htk => (preTokens_spec _ _ t tk htk).1)

/-- C7: the pre-encoder maps every ordered sequence of input strings to an
equal-length sequence of normalized strings; the empty string maps to the
empty string; in every normalized text each maximal space-separated chunk
containing a hyphen is exactly `"-"` (hyphens are isolated by single
spaces, and an already isolated hyphen stays as it is); and with
`strip_accents=True`, `"Brötchen"` maps to `"Brotchen"` and
`"AWO-Mitarbeiter"` to `"AWO - Mitarbeiter"`. -/
theorem c7_bert_pre_encoder (lowercase strip_accents : Bool)
    (input : List String) (t : String) :
    (bertPreEncoder lowercase strip_accents input).length = input.length
    ∧ bertPreEncoder lowercase strip_accents [""] = [""]
    ∧ (∀ w ∈ wsSplit (preEncodeText lowercase strip_accents t).data,
        '-' ∈ w → w = ['-'])
    ∧ bertPreEncoder false true ["Brötchen"] = ["Brotchen"]
    ∧ bertPreEncoder false true ["AWO-Mitarbeiter"] = ["AWO - Mitarbeiter"]
    ∧ bertPreEncoder false true ["-"] = ["-"] := by
  refine ⟨by simp [bertPreEncoder],
    by cases lowercase <;> cases strip_accents <;> decide,
    ?_, by decide, by decide, by decide⟩
  intro w hw hyph
  rw [wsSplit_preEncodeText] at hw
  rcases (preTokens_spec lowercase strip_accents t w hw).2 with ⟨c, rfl, hc⟩ | hfree
  · simp only [List.mem_singleton] at hyph
    subst hyph; rfl
  · have := hfree '-' hyph
    simp [isPunct] at this

/-! ### WordPiece splitting (modelled from the spec, §4.1 and glossary) -/

/-- The vocabulary entry a matched chunk stands for: within-word
continuations carry the `##` marker. -/
def pieceOf (is_initial : Bool) (taken : List Char) : List Char :=
  if is_initial then taken else '#' :: '#' :: taken

/-- Greedy longest-prefix match: the largest `n` with `1 ≤ n ≤ k` such that
the first `n` characters (with the continuation marker when not word
initial) form a vocabulary entry. -/
def wordpieceFindFrom (vocab : List (List Char)) (is_initial : Bool)
    (cs : List Char) : Nat → Option Nat
  | 0 => none
  | n + 1 =>
      if vocab.contains (pieceOf is_initial (cs.take (n + 1))) then some (n + 1)
      else wordpieceFindFrom vocab is_initial cs n

/-- The WordPiece loop over one word: match the longest vocabulary prefix,
emit its piece, continue on the rest as continuations; `none` when no
prefix of the remaining substring matches (the unknown fallback). -/
def wordpieceLoop (vocab : List (List Char)) :
    Nat → Bool → List Char → Option (List (List Char))
  | 0, _, cs => if cs.isEmpty then some [] else none
  | fuel + 1, is_initial, cs =>
      if cs.isEmpty then some []
      else
        match wordpieceFindFrom vocab is_initial cs cs.length with
        | none => none
        | some n =>
            (wordpieceLoop vocab fuel false (cs.drop n)).map
              (fun rest => pieceOf is_initial (cs.take n) :: rest)

/-- WordPiece splitting of one word: the matched pieces, or a single
unknown piece when no prefix of the remaining substring matches. -/
def wordpiece (vocab : List (List Char)) (unk : List Char) (w : List Char) :
    List (List Char) :=
  match wordpieceLoop vocab w.length true w with
  | none => [unk]
  | some ps => ps

/-- The decode join for all pieces after the first: `##` continuations are
stripped and appended, other pieces are appended after a space. -/
def joinRest : List (List Char) → List Char
  | [] => []
  | p :: ps => (if p.take 2 = ['#', '#'] then p.drop 2 else ' ' :: p) ++ joinRest ps

/-- The decode join: first piece as is, the rest via `joinRest`. -/
def joinPieces : List (List Char) → List Char
  | [] => []
  | p :: ps => p ++ joinRest ps

lemma joinRest_append (ps qs : List (List Char)) :
    joinRest (ps ++ qs) = joinRest ps ++ joinRest qs := by
  induction ps with
  | nil => rfl
  | cons p ps ih => simp [joinRest, ih]

lemma wordpieceFindFrom_spec (vocab : List (List Char)) (is_initial : Bool)
    (cs : List Char) : ∀ (k n : Nat),
    wordpieceFindFrom vocab is_initial cs k = some n →
    1 ≤ n ∧ n ≤ k ∧ vocab.contains (pieceOf is_initial (cs.take n)) = true := by
  intro k
  induction k with
  | zero => intro n h; cases h
  | succ k ih =>
    intro n h
    simp only [wordpieceFindFrom] at h
    by_cases hc : vocab.contains (pieceOf is_initial (cs.take (k + 1))) = true
    · rw [if_pos hc] at h
      injection h with h
      subst h
      exact ⟨by omega, le_rfl, hc⟩
    · rw [if_neg hc] at h
      obtain ⟨h1, h2, h3⟩ := ih n h
      exact ⟨h1, by omega, h3⟩

/-- Every piece the continuation loop emits carries the `##` marker and is
a vocabulary entry, and stripping the markers and concatenating recovers
the remaining substring. -/
lemma wordpieceLoop_false_spec (vocab : List (List Char)) :
    ∀ (fuel : Nat) (cs : List Char) (ps : List (List Char)),
    wordpieceLoop vocab fuel false cs = some ps →
    (∀ p ∈ ps, (∃ q, p = '#' :: '#' :: q) ∧ vocab.contains p = true)
      ∧ joinRest ps = cs := by
  intro fuel
  induction fuel with
  | zero =>
    intro cs ps h
    simp only [wordpieceLoop] at h
    by_cases hcs : cs.isEmpty
    · rw [if_pos hcs] at h
      injection h with h
      subst h
      exact ⟨by simp, by simp [joinRest, List.isEmpty_iff.mp hcs]⟩
    · rw [if_neg hcs] at h; cases h
  | succ fuel ih =>
    intro cs ps h
    simp only [wordpieceLoop] at h
    by_cases hcs : cs.isEmpty
    · rw [if_pos hcs] at h
      injection h with h
      subst h
      exact ⟨by simp, by simp [joinRest, List.isEmpty_iff.mp hcs]⟩
    · rw [if_neg hcs] at h
      cases hf : wordpieceFindFrom vocab false cs cs.length with
      | none => simp [hf] at h
      | some n =>
        simp only [hf] at h
        cases hr : wordpieceLoop vocab fuel false (cs.drop n) with
        | none => rw [hr] at h; simp at h
        | some rest =>
          rw [hr] at h
          injection h with h
          subst h
          obtain ⟨hmem, hjoin⟩ := ih (cs.drop n) rest hr
          obtain ⟨hn1, _, hvoc⟩ := wordpieceFindFrom_spec vocab false cs _ n hf
          constructor
          · intro p hp
            rcases List.mem_cons.mp hp with hp | hp
            · subst hp
              exact ⟨⟨cs.take n, rfl⟩, hvoc⟩
            · exact hmem p hp
          · simp only [joinRest, pieceOf, if_neg (Bool.false_ne_true), hjoin]
            simp [List.take_append_drop]

/-- The initial step of the WordPiece loop on a non-empty word: the first
piece is an unmarked vocabulary prefix and the continuations reassemble the
rest of the word. -/
lemma wordpieceLoop_true_spec (vocab : List (List Char)) (fuel : Nat)
    (cs : List Char) (ps : List (List Char)) (hne : cs ≠ [])
    (h : wordpieceLoop vocab fuel true cs = some ps) :
    ∃ n rest, 1 ≤ n ∧ n ≤ cs.length ∧ ps = cs.take n :: rest
      ∧ vocab.contains (cs.take n) = true
      ∧ (∀ p ∈ rest, (∃ q, p = '#' :: '#' :: q) ∧ vocab.contains p = true)
      ∧ joinRest rest = cs.drop n := by
  cases fuel with
  | zero =>
    simp only [wordpieceLoop] at h
    rw [if_neg (by simpa using hne)] at h
    cases h
  | succ fuel =>
    simp only [wordpieceLoop] at h
    rw [if_neg (by simpa using hne)] at h
    cases hf : wordpieceFindFrom vocab true cs cs.length with
    | none => simp [hf] at h
    | some n =>
      simp only [hf] at h
      cases hr : wordpieceLoop vocab fuel false (cs.drop n) with
      | none => rw [hr] at h; simp at h
      | some rest =>
        rw [hr] at h
        injection h with h
        subst h
        obtain ⟨hn1, hn2, hvoc⟩ := wordpieceFindFrom_spec vocab true cs _ n hf
        obtain ⟨hmem, hjoin⟩ := wordpieceLoop_false_spec vocab fuel _ rest hr
        exact ⟨n, rest, hn1, hn2, by simp [pieceOf], by simpa [pieceOf] using hvoc,
          hmem, hjoin⟩

/-- What WordPiece emits on a clean (no unknown fallback) good word: its
pieces rebuild the word under the decode join, the head piece carries no
continuation marker, and every piece is a vocabulary entry distinct from
the special markers. -/
lemma wordpiece_word_spec (vocab : List (List Char)) (w : List Char)
    (ps : List (List Char)) (hne : w ≠ []) (hgood : goodWord w)
    (h : wordpieceLoop vocab w.length true w = some ps) :
    ∃ p1 conts, ps = p1 :: conts
      ∧ joinPieces ps = w
      ∧ joinRest ps = ' ' :: w
      ∧ (∀ p ∈ ps, vocab.contains p = true)
      ∧ (∀ p ∈ ps, p ≠ "[CLS]".data ∧ p ≠ "[SEP]".data) := by
  obtain ⟨n, conts, hn1, hn2, hps, hvoc, hconts, hjoin⟩ :=
    wordpieceLoop_true_spec vocab w.length w ps hne h
  subst hps
  have hhead : ¬((w.take n).take 2 = ['#', '#']) := by
    intro htk
    rcases hgood with ⟨c, rfl, hc⟩ | hfree
    · have := congrArg List.length htk
      simp at this
      omega
    · have hmem : '#' ∈ (w.take n).take 2 := by rw [htk]; simp
      have : '#' ∈ w := List.take_subset _ _ (List.take_subset _ _ hmem)
      have := hfree '#' this
      simp [isPunct] at this
  have hjoinPieces : joinPieces (w.take n :: conts) = w := by
    simp only [joinPieces, hjoin]
    exact List.take_append_drop n w
  have hnotMark : ∀ p ∈ w.take n :: conts,
      p ≠ "[CLS]".data ∧ p ≠ "[SEP]".data := by
    intro p hp
    rcases List.mem_cons.mp hp with hp | hp
    · subst hp
      rcases hgood with ⟨c, rfl, hc⟩ | hfree
      · refine ⟨fun hEq => ?_, fun hEq => ?_⟩ <;>
          · have := congrArg List.length hEq
            have hn : n ≤ 1 := by simpa using hn2
            simp [List.length_take] at this
            omega
      · refine ⟨fun hEq => ?_, fun hEq => ?_⟩ <;>
          · have hmem : '[' ∈ w.take n := by rw [hEq]; decide
            have hw2 : '[' ∈ w := List.take_subset _ _ hmem
            have := hfree '[' hw2
            simp [isPunct] at this
    · obtain ⟨⟨q, rfl⟩, _⟩ := hconts p hp
      refine ⟨fun hEq => ?_, fun hEq => ?_⟩ <;>
        · injection hEq with h1 _
          exact absurd h1 (by decide)
  refine ⟨w.take n, conts, rfl, hjoinPieces, ?_, ?_, hnotMark⟩
  · simp only [joinRest, if_neg hhead, hjoin]
    simp [List.take_append_drop]
  · intro p hp
    rcases List.mem_cons.mp hp with hp | hp
    · subst hp; exact hvoc
    · exact (hconts p hp).2

lemma flat_joinRest (vocab : List (List Char)) (unk : List Char) :
    ∀ ws : List (List Char),
    (∀ w ∈ ws, w ≠ [] ∧ goodWord w
        ∧ (wordpieceLoop vocab w.length true w).isSome = true) →
    joinRest (ws.flatMap (fun w => wordpiece vocab unk w))
      = ws.flatMap (fun w => ' ' :: w) := by
  intro ws
  induction ws with
  | nil => intro _; rfl
  | cons w ws' ih =>
    intro h
    obtain ⟨hne, hgood, hsome⟩ := h w (by simp)
    obtain ⟨ps, hps⟩ := Option.isSome_iff_exists.mp hsome
    have hwp : wordpiece vocab unk w = ps := by simp [wordpiece, hps]
    obtain ⟨p1, conts, hpsEq, _, hjoinR, _, _⟩ :=
      wordpiece_word_spec vocab w ps hne hgood hps
    simp only [List.flatMap_cons, hwp, joinRest_append]
    rw [hjoinR, ih (fun v hv => h v (by simp [hv]))]

lemma seps_flatMap_eq_joinSpace : ∀ (v : List Char) (vs : List (List Char)),
    (v :: vs).flatMap (fun w => ' ' :: w) = ' ' :: joinSpace (v :: vs) := by
  intro v vs
  induction vs generalizing v with
  | nil => simp [joinSpace]
  | cons u vs ih =>
    show (' ' :: v) ++ (u :: vs).flatMap (fun w => ' ' :: w) = _
    rw [ih u]
    simp [joinSpace]

lemma flat_join (vocab : List (List Char)) (unk : List Char)
    (ws : List (List Char))
    (h : ∀ w ∈ ws, w ≠ [] ∧ goodWord w
        ∧ (wordpieceLoop vocab w.length true w).isSome = true) :
    joinPieces (ws.flatMap (fun w => wordpiece vocab unk w)) = joinSpace ws := by
  cases ws with
  | nil => rfl
  | cons w ws' =>
    obtain ⟨hne, hgood, hsome⟩ := h w (by simp)
    obtain ⟨ps, hps⟩ := Option.isSome_iff_exists.mp hsome
    have hwp : wordpiece vocab unk w = ps := by simp [wordpiece, hps]
    obtain ⟨p1, conts, hpsEq, hjoinP, _, _, _⟩ :=
      wordpiece_word_spec vocab w ps hne hgood hps
    subst hpsEq
    simp only [List.flatMap_cons, hwp, List.cons_append, joinPieces, joinRest_append]
    have hjp : p1 ++ joinRest conts = w := hjoinP
    rw [flat_joinRest vocab unk ws' (fun v hv => h v (by simp [hv]))]
    cases ws' with
    | nil =>
      simp [joinSpace, ← List.append_assoc, hjp]
    | cons v vs =>
      rw [seps_flatMap_eq_joinSpace v vs]
      show p1 ++ (joinRest conts ++ (' ' :: joinSpace (v :: vs))) = _
      rw [← List.append_assoc, hjp]
      rfl

/-! ### The BERT tokenizer (modelled from the spec, §4.1–§4.4, §6) -/

/-- Piece ids are assigned by vocabulary order (§6: "order defines id
assignment"): the index of the first occurrence. -/
def vocabIndex : List (List Char) → List Char → Option Nat
  | [], _ => none
  | q :: rest, p => if q = p then some 0 else (vocabIndex rest p).map (· + 1)

lemma vocabIndex_isSome (vocab : List (List Char)) (p : List Char)
    (h : p ∈ vocab) : (vocabIndex vocab p).isSome = true := by
  induction vocab with
  | nil => cases h
  | cons q rest ih =>
    by_cases hq : q = p
    · simp [vocabIndex, hq]
    · rcases List.mem_cons.mp h with h | h
      · exact absurd h.symm hq
      · simp only [vocabIndex, if_neg hq]
        have := ih h
        cases hv : vocabIndex rest p with
        | none => rw [hv] at this; cases this
        | some i => simp

lemma vocabIndex_getD (vocab : List (List Char)) (p : List Char) :
    ∀ i : Nat, vocabIndex vocab p = some i → vocab.getD i [] = p := by
  induction vocab with
  | nil => intro i h; cases h
  | cons q rest ih =>
    intro i h
    by_cases hq : q = p
    · simp only [vocabIndex, if_pos hq] at h
      injection h with h
      subst h
      simpa using hq
    · simp only [vocabIndex, if_neg hq] at h
      cases hv : vocabIndex rest p with
      | none => rw [hv] at h; cases h
      | some j =>
        rw [hv] at h
        injection h with h
        subst h
        simpa using ih j hv

/-- Modelled from the spec: the BERT tokenizer — a WordPiece vocabulary
(order defines ids) and the pre-encoder flags.  The special pieces are the
BERT markers `[CLS]`, `[SEP]` and the unknown piece `[UNK]`. -/
structure BertTokenizer where
  vocab : List (List Char)
  lowercase : Bool
  strip_accents : Bool

/-- The id assigned to a piece (first index in the vocabulary). -/
def BertTokenizer.piece_to_id (tok : BertTokenizer) (p : List Char) : Nat :=
  (vocabIndex tok.vocab p).getD 0

/-- The begin-of-sequence marker id. -/
def BertTokenizer.bos_id (tok : BertTokenizer) : Nat :=
  tok.piece_to_id "[CLS]".data

/-- The end-of-sequence marker id. -/
def BertTokenizer.eos_id (tok : BertTokenizer) : Nat :=
  tok.piece_to_id "[SEP]".data

/-- Modelled from the spec (§4.3–§4.4): the pieces of one text —
pre-encode, whitespace-split, WordPiece each word, and surround with the
`[CLS]`/`[SEP]` markers. -/
def BertTokenizer.encode_pieces (tok : BertTokenizer) (t : String) :
    List (List Char) :=
  "[CLS]".data ::
    (wsSplit (preEncodeText tok.lowercase tok.strip_accents t).data).flatMap
      (fun w => wordpiece tok.vocab "[UNK]".data w)
    ++ ["[SEP]".data]

/-- Modelled from the spec (§4.4): `encode` over a batch of texts,
producing the `PiecesWithIds` of ids, piece strings and per-word lengths. -/
def BertTokenizer.encode (tok : BertTokenizer) (texts : List String) :
    PiecesWithIds :=
  { ids := texts.map (fun t => (tok.encode_pieces t).map tok.piece_to_id)
    pieces := texts.map (fun t => (tok.encode_pieces t).map String.mk)
    lens := texts.map (fun t =>
      1 :: (wsSplit (preEncodeText tok.lowercase tok.strip_accents t).data).map
        (fun w => (wordpiece tok.vocab "[UNK]".data w).length)
      ++ [1]) }

/-- Modelled from the spec (§4.3–§4.4): decode one id sequence — drop the
marker ids wherever they occur, map ids back to pieces, and join with
`##`-continuation stripping and space insertion. -/
def BertTokenizer.decode_row (tok : BertTokenizer) (row : List Nat) : String :=
  String.mk (joinPieces
    ((row.filter (fun i => !(i == tok.bos_id) && !(i == tok.eos_id))).map
      (fun i => tok.vocab.getD i [])))

/-- Modelled from the spec (§4.4): `decode` over a batch of id sequences. -/
def BertTokenizer.decode (tok : BertTokenizer) (ids : List (List Nat)) :
    List String :=
  ids.map tok.decode_row

lemma map_eq_self_mem {α : Type} (f : α → α) : ∀ (l : List α), l.map f = l →
    ∀ x ∈ l, f x = x := by
  intro l
  induction l with
  | nil => intro _ x hx; cases hx
  | cons a l ih =>
    intro h x hx
    simp only [List.map_cons, List.cons.injEq] at h
    rcases List.mem_cons.mp hx with hx | hx
    · subst hx; exact h.1
    · exact ih h.2 x hx

/-- One text's round trip: when the pre-encoder leaves the text unchanged
and every word WordPiece-tokenises without the unknown fallback, decoding
the encoded ids reproduces the text exactly. -/
lemma bert_round_trip_row (tok : BertTokenizer) (t : String)
    (hcls : "[CLS]".data ∈ tok.vocab) (hsep : "[SEP]".data ∈ tok.vocab)
    (hfix : preEncodeText tok.lowercase tok.strip_accents t = t)
    (hclean : ∀ w ∈ wsSplit t.data,
        (wordpieceLoop tok.vocab w.length true w).isSome = true) :
    tok.decode_row ((tok.encode_pieces t).map tok.piece_to_id) = t := by
  have htok := wsSplit_preEncodeText tok.lowercase tok.strip_accents t
  rw [hfix] at htok
  have hword : ∀ w ∈ wsSplit t.data, (w ≠ [] ∧ ∀ x ∈ w, x ≠ ' ') ∧ goodWord w := by
    intro w hw
    rw [htok] at hw
    exact preTokens_spec _ _ t w hw
  have hgoods : ∀ w ∈ wsSplit t.data, w ≠ [] ∧ goodWord w
      ∧ (wordpieceLoop tok.vocab w.length true w).isSome = true :=
    fun w hw => ⟨(hword w hw).1.1, (hword w hw).2, hclean w hw⟩
  have henc : tok.encode_pieces t
      = "[CLS]".data ::
          (wsSplit t.data).flatMap (fun w => wordpiece tok.vocab "[UNK]".data w)
          ++ ["[SEP]".data] := by
    unfold BertTokenizer.encode_pieces
    rw [hfix]
  have hpieces : ∀ p ∈ (wsSplit t.data).flatMap
      (fun w => wordpiece tok.vocab "[UNK]".data w),
      p ∈ tok.vocab ∧ p ≠ "[CLS]".data ∧ p ≠ "[SEP]".data := by
    intro p hp
    obtain ⟨w, hw, hpw⟩ := List.mem_flatMap.mp hp
    obtain ⟨hne, hgood, hsome⟩ := hgoods w hw
    obtain ⟨ps, hps⟩ := Option.isSome_iff_exists.mp hsome
    have hwp : wordpiece tok.vocab "[UNK]".data w = ps := by simp [wordpiece, hps]
    rw [hwp] at hpw
    obtain ⟨p1, conts, hpsEq, _, _, hvoc, hmark⟩ :=
      wordpiece_word_spec tok.vocab w ps hne hgood hps
    refine ⟨?_, hmark p hpw⟩
    have := hvoc p hpw
    simpa using this
  have hid : ∀ p, p ∈ tok.vocab → tok.vocab.getD (tok.piece_to_id p) [] = p := by
    intro p hp
    have hs := vocabIndex_isSome tok.vocab p hp
    cases hv : vocabIndex tok.vocab p with
    | none => rw [hv] at hs; cases hs
    | some i =>
      have := vocabIndex_getD tok.vocab p i hv
      simpa [BertTokenizer.piece_to_id, hv] using this
  have hnotmark : ∀ p ∈ (wsSplit t.data).flatMap
      (fun w => wordpiece tok.vocab "[UNK]".data w),
      tok.piece_to_id p ≠ tok.bos_id ∧ tok.piece_to_id p ≠ tok.eos_id := by
    intro p hp
    obtain ⟨hpv, hpc, hpe⟩ := hpieces p hp
    constructor
    · intro hEq
      have h1 : tok.vocab.getD (tok.piece_to_id p) [] = p := hid p hpv
      have h2 : tok.vocab.getD tok.bos_id [] = "[CLS]".data := hid _ hcls
      rw [hEq] at h1
      exact hpc (h1.symm.trans h2)
    · intro hEq
      have h1 : tok.vocab.getD (tok.piece_to_id p) [] = p := hid p hpv
      have h2 : tok.vocab.getD tok.eos_id [] = "[SEP]".data := hid _ hsep
      rw [hEq] at h1
      exact hpe (h1.symm.trans h2)
  unfold BertTokenizer.decode_row
  rw [henc]
  simp only [List.map_append, List.map_cons, List.map_nil]
  have hbos : tok.piece_to_id "[CLS]".data = tok.bos_id := rfl
  have heos : tok.piece_to_id "[SEP]".data = tok.eos_id := rfl
  rw [hbos, heos]
  rw [List.filter_append, List.filter_cons_of_neg (by simp)]
  have hsepfilter : List.filter (fun i => !(i == tok.bos_id) && !(i == tok.eos_id))
      [tok.eos_id] = [] := by simp
  rw [hsepfilter]
  have hfilter : (((wsSplit t.data).flatMap
      (fun w => wordpiece tok.vocab "[UNK]".data w)).map tok.piece_to_id).filter
        (fun i => !(i == tok.bos_id) && !(i == tok.eos_id))
      = ((wsSplit t.data).flatMap
          (fun w => wordpiece tok.vocab "[UNK]".data w)).map tok.piece_to_id := by
    apply List.filter_eq_self.mpr
    intro i hi
    obtain ⟨p, hp, rfl⟩ := List.mem_map.mp hi
    obtain ⟨h1, h2⟩ := hnotmark p hp
    simp [h1, h2]
  rw [hfilter, List.append_nil, List.map_map]
  have hback : ((wsSplit t.data).flatMap
      (fun w => wordpiece tok.vocab "[UNK]".data w)).map
        ((fun i => tok.vocab.getD i []) ∘ tok.piece_to_id)
      = (wsSplit t.data).flatMap (fun w => wordpiece tok.vocab "[UNK]".data w) := by
    conv_rhs => rw [← List.map_id ((wsSplit t.data).flatMap
      (fun w => wordpiece tok.vocab "[UNK]".data w))]
    apply List.map_congr_left
    intro p hp
    exact hid p (hpieces p hp).1
  rw [hback]
  have hjoin : joinPieces ((wsSplit t.data).flatMap
      (fun w => wordpiece tok.vocab "[UNK]".data w)) = joinSpace (wsSplit t.data) :=
    flat_join tok.vocab "[UNK]".data (wsSplit t.data) hgoods
  rw [hjoin]
  have hjs : joinSpace (wsSplit t.data) = t.data := by
    rw [htok]
    exact congrArg String.data hfix
  rw [hjs]

/-- C4 counterexample: `"b"` is untouched by the pre-encoder (no character
of it is affected by normalization), yet with a vocabulary lacking any
piece for it, `decode(encode(["b"]).ids)` is `["[UNK]"]`, not `["b"]` —
the unknown-piece fallback breaks the round trip even without
normalization. -/
theorem c4_counterexample :
    bertPreEncoder false false ["b"] = ["b"]
    ∧ BertTokenizer.decode
        ⟨["[UNK]".data, "[CLS]".data, "[SEP]".data, "a".data], false, false⟩
        ((BertTokenizer.encode
          ⟨["[UNK]".data, "[CLS]".data, "[SEP]".data, "a".data], false, false⟩
          ["b"]).ids)
        = ["[UNK]"]
    ∧ ("[UNK]" : String) ≠ "b" := by
  refine ⟨by decide, by decide, by decide⟩

/-- C4 (amended): for every batch of texts none of which is changed by the
pre-encoder's normalization, and in which additionally every
whitespace-separated word WordPiece-tokenises without the unknown-piece
fallback (the vocabulary containing the `[CLS]`/`[SEP]` markers),
`decode(encode(texts).ids)` returns exactly the texts; when normalization
or the unknown fallback does change a text, decode reconstructs only the
normalized/unknown-substituted form. -/
theorem c4_round_trip (tok : BertTokenizer) (texts : List String)
    (hcls : "[CLS]".data ∈ tok.vocab) (hsep : "[SEP]".data ∈ tok.vocab)
    (hfix : bertPreEncoder tok.lowercase tok.strip_accents texts = texts)
    (hclean : ∀ t ∈ texts, ∀ w ∈ wsSplit t.data,
        (wordpieceLoop tok.vocab w.length true w).isSome = true) :
    tok.decode (tok.encode texts).ids = texts := by
  unfold BertTokenizer.decode BertTokenizer.encode
  simp only [List.map_map]
  conv_rhs => rw [← List.map_id texts]
  apply List.map_congr_left
  intro t ht
  show tok.decode_row ((tok.encode_pieces t).map tok.piece_to_id) = t
  exact bert_round_trip_row tok t hcls hsep
    (map_eq_self_mem _ texts hfix t ht) (hclean t ht)

/-- Witness for C4 (amended): a concrete vocabulary and text where the
hypotheses hold and the round trip is exact. -/
theorem c4_witness :
    BertTokenizer.decode
        ⟨["[UNK]".data, "[CLS]".data, "[SEP]".data, "ab".data, "##c".data,
          "x".data], false, false⟩
        ((BertTokenizer.encode
          ⟨["[UNK]".data, "[CLS]".data, "[SEP]".data, "ab".data, "##c".data,
            "x".data], false, false⟩
          ["abc x"]).ids)
      = ["abc x"] :=
  c4_round_trip
    ⟨["[UNK]".data, "[CLS]".data, "[SEP]".data, "ab".data, "##c".data,
      "x".data], false, false⟩
    ["abc x"] (by decide) (by decide) (by decide) (by decide)

end CuratedTransformers
